import Mathlib

/-!
SkySatPrep — formal verification of the radiometric pipeline core

Shallow embedding of `src/skysatprep/core.py`. Machine arithmetic is
modelled over `ℚ` (exact rationals standing for the NumPy float values;
rationals are always finite, so `np.isfinite` checks are identically
true in the model), unsigned 16-bit samples over `ℕ`, in-memory arrays
as `List`s, the filesystem as an association list from names to
contents, and GDAL dataset opens — which raise on failure because the
module calls `gdal.UseExceptions()` at import time — as `Except`.
-/

namespace SkySatPrep

/-! Tone Curve (`apply_shadow_highlight_tone`, core.py lines 128-136)

```python
def apply_shadow_highlight_tone(arr01, shadow_boost, highlight_comp):
    if shadow_boost <= 0 and highlight_comp <= 0:
        return arr01
    y = arr01.astype(np.float32)
    if shadow_boost > 0:
        y = y + float(shadow_boost) * (1.0 - y) * (1.0 - y)
    if highlight_comp > 0:
        y = y - float(highlight_comp) * (y * y)
    return np.clip(y, 0.0, 1.0)
```
-/

/-- The pointwise map applied by `apply_shadow_highlight_tone` when at least
one of the two parameters is positive (the non-early-return branch). -/
def tonePoint (shadow_boost highlight_comp y : ℚ) : ℚ :=
  let y1 := if shadow_boost > 0 then y + shadow_boost * (1 - y) * (1 - y) else y
  let y2 := if highlight_comp > 0 then y1 - highlight_comp * (y1 * y1) else y1
  max 0 (min 1 y2)

/-- Model of `apply_shadow_highlight_tone` on an array (modelled as a list of samples):
early return of the unmodified input when both parameters are ≤ 0, otherwise
the pointwise shadow-lift / highlight-compression / clip map. -/
def apply_shadow_highlight_tone (arr01 : List ℚ) (shadow_boost highlight_comp : ℚ) :
    List ℚ :=
  if shadow_boost ≤ 0 ∧ highlight_comp ≤ 0 then arr01
  else arr01.map (tonePoint shadow_boost highlight_comp)

/-- The single-sample map `apply_shadow_highlight_tone` realizes (identity in
the early-return branch, `tonePoint` otherwise). -/
def toneMap (shadow_boost highlight_comp y : ℚ) : ℚ :=
  if shadow_boost ≤ 0 ∧ highlight_comp ≤ 0 then y
  else tonePoint shadow_boost highlight_comp y

-- Shadow-lift stage: monotone on [0,1] for shadow_boost ∈ [0, 1/2].
lemma shadow_mono {s a b : ℚ} (hs0 : 0 ≤ s) (hs1 : s ≤ 1/2)
    (ha : 0 ≤ a) (hab : a ≤ b) (hb : b ≤ 1) :
    a + s * (1 - a) * (1 - a) ≤ b + s * (1 - b) * (1 - b) := by
  nlinarith [mul_nonneg (sub_nonneg.mpr hab) (sub_nonneg.mpr hs1),
    mul_nonneg (sub_nonneg.mpr hab) hs0,
    mul_nonneg (mul_nonneg (sub_nonneg.mpr hab) hs0) ha,
    mul_nonneg (mul_nonneg (sub_nonneg.mpr hab) hs0) (sub_nonneg.mpr hb)]

-- Shadow-lift stage: maps [0,1] into [0,1] for shadow_boost ∈ [0, 1/2].
lemma shadow_range {s y : ℚ} (hs0 : 0 ≤ s) (hs1 : s ≤ 1/2)
    (hy0 : 0 ≤ y) (hy1 : y ≤ 1) :
    0 ≤ y + s * (1 - y) * (1 - y) ∧ y + s * (1 - y) * (1 - y) ≤ 1 := by
  constructor
  · nlinarith [mul_nonneg (mul_nonneg hs0 (sub_nonneg.mpr hy1)) (sub_nonneg.mpr hy1)]
  · nlinarith [mul_nonneg (sub_nonneg.mpr hy1) (sub_nonneg.mpr hs1),
      mul_nonneg (mul_nonneg hs0 (sub_nonneg.mpr hy1)) hy0]

-- Highlight-compression stage: monotone on [0,1] for highlight_comp ∈ [0, 2/5].
lemma highlight_mono {h a b : ℚ} (hh0 : 0 ≤ h) (hh1 : h ≤ 2/5)
    (ha : 0 ≤ a) (hab : a ≤ b) (hb : b ≤ 1) :
    a - h * (a * a) ≤ b - h * (b * b) := by
  nlinarith [mul_nonneg (sub_nonneg.mpr hab) (sub_nonneg.mpr hh1),
    mul_nonneg (mul_nonneg (sub_nonneg.mpr hab) hh0) (sub_nonneg.mpr hb),
    mul_nonneg (mul_nonneg (sub_nonneg.mpr hab) hh0) ha]

-- Highlight-compression stage: maps [0,1] into [0,1] for highlight_comp ∈ [0, 2/5].
lemma highlight_range {h y : ℚ} (hh0 : 0 ≤ h) (hh1 : h ≤ 2/5)
    (hy0 : 0 ≤ y) (hy1 : y ≤ 1) :
    0 ≤ y - h * (y * y) ∧ y - h * (y * y) ≤ 1 := by
  constructor
  · nlinarith [mul_nonneg (mul_nonneg hh0 hy0) (sub_nonneg.mpr hy1),
      mul_nonneg hy0 (sub_nonneg.mpr hh1)]
  · nlinarith [mul_nonneg (mul_nonneg hh0 hy0) hy0]

lemma tonePoint_mono {s h a b : ℚ} (hs0 : 0 ≤ s) (hs1 : s ≤ 1/2)
    (hh0 : 0 ≤ h) (hh1 : h ≤ 2/5)
    (ha : 0 ≤ a) (hab : a ≤ b) (hb : b ≤ 1) :
    tonePoint s h a ≤ tonePoint s h b := by
  unfold tonePoint
  by_cases hs : s > 0
  · simp only [if_pos hs]
    have h1a := shadow_range hs0 hs1 ha (hab.trans hb)
    have h1b := shadow_range hs0 hs1 (ha.trans hab) hb
    have hmono1 := shadow_mono hs0 hs1 ha hab hb
    by_cases hh : h > 0
    · simp only [if_pos hh]
      have hmono2 := highlight_mono hh0 hh1 h1a.1 hmono1 h1b.2
      exact max_le_max le_rfl (min_le_min le_rfl hmono2)
    · simp only [if_neg hh]
      exact max_le_max le_rfl (min_le_min le_rfl hmono1)
  · simp only [if_neg hs]
    by_cases hh : h > 0
    · simp only [if_pos hh]
      have hmono2 := highlight_mono hh0 hh1 ha hab hb
      exact max_le_max le_rfl (min_le_min le_rfl hmono2)
    · simp only [if_neg hh]
      exact max_le_max le_rfl (min_le_min le_rfl hab)

lemma tonePoint_range (s h y : ℚ) : 0 ≤ tonePoint s h y ∧ tonePoint s h y ≤ 1 := by
  unfold tonePoint
  refine ⟨le_max_left _ _, max_le ?_ (min_le_left _ _)⟩
  norm_num

lemma toneMap_mono {s h a b : ℚ} (hs0 : 0 ≤ s) (hs1 : s ≤ 1/2)
    (hh0 : 0 ≤ h) (hh1 : h ≤ 2/5)
    (ha : 0 ≤ a) (hab : a ≤ b) (hb : b ≤ 1) :
    toneMap s h a ≤ toneMap s h b := by
  unfold toneMap
  by_cases hc : s ≤ 0 ∧ h ≤ 0
  · simpa [hc] using hab
  · simpa [hc] using tonePoint_mono hs0 hs1 hh0 hh1 ha hab hb

lemma apply_tone_eq_map (arr : List ℚ) (s h : ℚ) :
    apply_shadow_highlight_tone arr s h = arr.map (toneMap s h) := by
  unfold apply_shadow_highlight_tone toneMap
  by_cases hc : s ≤ 0 ∧ h ≤ 0
  · simp [hc]
  · simp [hc]

/-- C1: for shadow_boost ∈ [0, 0.5], highlight_comp ∈ [0, 0.4] and an input
array with all values in [0,1], the Tone Curve returns an array of the same
shape (length) with all values in [0,1]; the array it returns is the pointwise
image of the single-sample map `toneMap`, and that map is non-decreasing on
[0,1] (exactly, hence within any numerical tolerance). -/
theorem tone_curve_monotone_and_bounded (s h : ℚ)
    (hs0 : 0 ≤ s) (hs1 : s ≤ 1/2) (hh0 : 0 ≤ h) (hh1 : h ≤ 2/5)
    (arr : List ℚ) (harr : ∀ y ∈ arr, 0 ≤ y ∧ y ≤ 1) :
    (apply_shadow_highlight_tone arr s h).length = arr.length ∧
    apply_shadow_highlight_tone arr s h = arr.map (toneMap s h) ∧
    (∀ z ∈ apply_shadow_highlight_tone arr s h, 0 ≤ z ∧ z ≤ 1) ∧
    (∀ a b : ℚ, 0 ≤ a → a ≤ b → b ≤ 1 → toneMap s h a ≤ toneMap s h b) := by
  refine ⟨?_, apply_tone_eq_map arr s h, ?_, ?_⟩
  · rw [apply_tone_eq_map]; exact List.length_map _ _
  · intro z hz
    rw [apply_tone_eq_map] at hz
    rcases List.mem_map.mp hz with ⟨y, hy, rfl⟩
    rcases harr y hy with ⟨hy0, hy1⟩
    unfold toneMap
    by_cases hc : s ≤ 0 ∧ h ≤ 0
    · simpa [hc] using ⟨hy0, hy1⟩
    · simpa [hc] using tonePoint_range s h y
  · intro a b ha hab hb
    exact toneMap_mono hs0 hs1 hh0 hh1 ha hab hb

/-- C1 witness: the tone-curve theorem applied at shadow_boost = 1/5,
highlight_comp = 1/10 and the concrete array [0, 1/2, 1]. -/
theorem tone_curve_monotone_and_bounded_witness :
    (apply_shadow_highlight_tone [0, 1/2, 1] (1/5) (1/10)).length = 3 :=
  (tone_curve_monotone_and_bounded (1/5) (1/10) (by norm_num) (by norm_num)
    (by norm_num) (by norm_num) [0, 1/2, 1]
    (by intro y hy; fin_cases hy <;> norm_num)).1.trans rfl

/-- C10: whenever shadow_boost ≤ 0 and highlight_comp ≤ 0,
`apply_shadow_highlight_tone` returns its input array unchanged — no clipping
is applied, so values outside [0,1] pass through unmodified. -/
theorem tone_curve_identity_when_disabled (arr : List ℚ) (s h : ℚ)
    (hs : s ≤ 0) (hh : h ≤ 0) :
    apply_shadow_highlight_tone arr s h = arr := by
  unfold apply_shadow_highlight_tone
  simp [hs, hh]

/-- C10 witness: with both parameters 0, the out-of-range value 2 passes
through unmodified (no clip to [0,1]). -/
theorem tone_curve_identity_when_disabled_witness :
    apply_shadow_highlight_tone [2] 0 0 = [2] :=
  tone_curve_identity_when_disabled [2] 0 0 le_rfl le_rfl

/-! Percentile Stretch Estimator (`robust_percentiles`, core.py lines 101-108)

```python
def robust_percentiles(arr_u16, pmin, pmax):
    nz = arr_u16[(arr_u16 > 0) & (arr_u16 < 65535)]
    if nz.size == 0:
        return 1.0, 99.0
    lo, hi = np.percentile(nz, [pmin, pmax])
    if not np.isfinite(lo) or not np.isfinite(hi) or hi <= lo:
        lo, hi = float(nz.min()), float(nz.max())
    return lo, hi
```
-/

/-- Insertion of a sample into an ascending list (helper of `sortAsc`). -/
def insertAsc (x : ℚ) : List ℚ → List ℚ
  | [] => [x]
  | y :: ys => if x ≤ y then x :: y :: ys else y :: insertAsc x ys

/-- Ascending sort of the sample population, modelling the ranking step inside
`np.percentile` (insertion sort; same sorted sequence as NumPy's sort). -/
def sortAsc (l : List ℚ) : List ℚ := l.foldr insertAsc []

/-- Model of `np.percentile(xs, q)` with the default linear interpolation between
ranked samples: virtual position `q·(n−1)/100`, linearly interpolating between
the ranked sample at its floor and the sample at the next rank. -/
def percentile (xs : List ℚ) (q : ℚ) : ℚ :=
  let s := sortAsc xs
  let n := s.length
  let pos := q * ((n : ℚ) - 1) / 100
  let i := (⌊pos⌋).toNat
  let frac := pos - (i : ℚ)
  let a := s.getD i 0
  let b := s.getD (i + 1) a
  a + frac * (b - a)

/-- Model of `nz.min()` on a nonempty sample population (0 on an empty list, which
`robust_percentiles` never reaches). -/
def listMin : List ℚ → ℚ
  | [] => 0
  | x :: xs => xs.foldl min x

/-- Model of `nz.max()` on a nonempty sample population. -/
def listMax : List ℚ → ℚ
  | [] => 0
  | x :: xs => xs.foldl max x

/-- The filtered sample population of `robust_percentiles`: samples strictly
between the no-data sentinel 0 and the saturation sentinel 65535, as
rationals. -/
def nzSamples (arr_u16 : List ℕ) : List ℚ :=
  (arr_u16.filter (fun v => decide (0 < v) && decide (v < 65535))).map
    (fun v => (v : ℚ))

/-- Model of `robust_percentiles`: drop the sentinel samples, return the fixed fallback
(1.0, 99.0) on an empty remainder, otherwise the percentile pair with a
fallback to the remainder's exact min/max when `hi ≤ lo`.  Rationals are
always finite, so the two `np.isfinite` guards are identically true in the
model and only the `hi <= lo` disjunct of the fallback test remains. -/
def robust_percentiles (arr_u16 : List ℕ) (pmin pmax : ℚ) : ℚ × ℚ :=
  let nz := nzSamples arr_u16
  if nz.length = 0 then (1, 99)
  else
    let lo := percentile nz pmin
    let hi := percentile nz pmax
    if hi ≤ lo then (listMin nz, listMax nz)
    else (lo, hi)

/-- The sample population is constant: every sample equals the first. -/
def allEq (l : List ℚ) : Prop := ∀ v ∈ l, v = l.headD 0

instance (l : List ℚ) : Decidable (allEq l) := by
  unfold allEq; infer_instance

lemma insertAsc_length (x : ℚ) (l : List ℚ) :
    (insertAsc x l).length = l.length + 1 := by
  induction l with
  | nil => rfl
  | cons z zs ih => by_cases h : x ≤ z <;> simp [insertAsc, h, ih]

lemma sortAsc_length (l : List ℚ) : (sortAsc l).length = l.length := by
  induction l with
  | nil => rfl
  | cons x xs ih => simp [sortAsc, List.foldr] at ih ⊢; rw [insertAsc_length, ih]

lemma insertAsc_mem {x y : ℚ} {l : List ℚ} :
    y ∈ insertAsc x l ↔ y = x ∨ y ∈ l := by
  induction l with
  | nil => simp [insertAsc]
  | cons z zs ih =>
    by_cases h : x ≤ z
    · simp [insertAsc, h]
    · simp only [insertAsc, if_neg h, List.mem_cons, ih]
      tauto

lemma sortAsc_mem {y : ℚ} {l : List ℚ} : y ∈ sortAsc l ↔ y ∈ l := by
  induction l with
  | nil => simp [sortAsc]
  | cons x xs ih =>
    simp only [sortAsc, List.foldr] at ih ⊢
    rw [insertAsc_mem, ih, List.mem_cons]

lemma getD_all_eq {l : List ℚ} {c : ℚ} (hconst : ∀ v ∈ l, v = c) {i : ℕ}
    (hi : i < l.length) (d : ℚ) : l.getD i d = c := by
  rw [List.getD_eq_getElem l d hi]
  exact hconst _ (List.getElem_mem hi)

/-- Value of `np.percentile` on a nonempty constant population is that constant, for
any percentile parameter ≤ 100. -/
lemma percentile_const {l : List ℚ} {c : ℚ} (hne : l ≠ [])
    (hconst : ∀ v ∈ l, v = c) {q : ℚ} (hq : q ≤ 100) :
    percentile l q = c := by
  unfold percentile
  have hsc : ∀ v ∈ sortAsc l, v = c := fun v hv => hconst v (sortAsc_mem.mp hv)
  have hn : 0 < (sortAsc l).length := by
    rw [sortAsc_length]
    exact List.length_pos.mpr hne
  set s := sortAsc l with hs
  set n := s.length with hndef
  have hn1 : (0:ℚ) ≤ (n : ℚ) - 1 := by
    have : (1:ℚ) ≤ (n : ℚ) := by exact_mod_cast hn
    linarith
  have hpos_le : q * ((n : ℚ) - 1) / 100 ≤ (n : ℚ) - 1 := by
    rw [div_le_iff₀ (by norm_num : (0:ℚ) < 100)]
    nlinarith
  have hfloor : (⌊q * ((n : ℚ) - 1) / 100⌋).toNat < n := by
    have h1 : ⌊q * ((n : ℚ) - 1) / 100⌋ ≤ (n : ℤ) - 1 := by
      have hfl : (⌊q * ((n : ℚ) - 1) / 100⌋ : ℚ) ≤ (n : ℚ) - 1 :=
        (Int.floor_le _).trans hpos_le
      exact_mod_cast hfl
    have h2 : (⌊q * ((n : ℚ) - 1) / 100⌋).toNat ≤ n - 1 := by
      rw [Int.toNat_le]
      omega
    omega
  have ha : s.getD (⌊q * ((n : ℚ) - 1) / 100⌋).toNat 0 = c :=
    getD_all_eq hsc hfloor 0
  have hb : s.getD ((⌊q * ((n : ℚ) - 1) / 100⌋).toNat + 1) c = c := by
    by_cases hb1 : (⌊q * ((n : ℚ) - 1) / 100⌋).toNat + 1 < n
    · exact getD_all_eq hsc hb1 c
    · exact List.getD_eq_default s c (by omega)
  simp only [← hndef, ha, hb]
  ring

lemma foldl_min_le_init (l : List ℚ) (a : ℚ) : l.foldl min a ≤ a := by
  induction l generalizing a with
  | nil => simp
  | cons y ys ih => exact (ih (min a y)).trans (min_le_left a y)

lemma foldl_min_le_mem {x : ℚ} {l : List ℚ} (hx : x ∈ l) (a : ℚ) :
    l.foldl min a ≤ x := by
  induction l generalizing a with
  | nil => cases hx
  | cons y ys ih =>
    rcases List.mem_cons.mp hx with rfl | hx'
    · exact (foldl_min_le_init ys (min a x)).trans (min_le_right a x)
    · exact ih hx' _

lemma init_le_foldl_max (l : List ℚ) (a : ℚ) : a ≤ l.foldl max a := by
  induction l generalizing a with
  | nil => simp
  | cons y ys ih => exact (le_max_left a y).trans (ih (max a y))

lemma mem_le_foldl_max {x : ℚ} {l : List ℚ} (hx : x ∈ l) (a : ℚ) :
    x ≤ l.foldl max a := by
  induction l generalizing a with
  | nil => cases hx
  | cons y ys ih =>
    rcases List.mem_cons.mp hx with rfl | hx'
    · exact (le_max_right a x).trans (init_le_foldl_max ys (max a x))
    · exact ih hx' _

lemma listMin_le {x : ℚ} {l : List ℚ} (hx : x ∈ l) : listMin l ≤ x := by
  cases l with
  | nil => cases hx
  | cons y ys =>
    rcases List.mem_cons.mp hx with rfl | hx'
    · exact foldl_min_le_init ys x
    · exact foldl_min_le_mem hx' y

lemma le_listMax {x : ℚ} {l : List ℚ} (hx : x ∈ l) : x ≤ listMax l := by
  cases l with
  | nil => cases hx
  | cons y ys =>
    rcases List.mem_cons.mp hx with rfl | hx'
    · exact init_le_foldl_max ys x
    · exact mem_le_foldl_max hx' y

lemma listMin_lt_listMax {l : List ℚ} (hne : l ≠ []) (hnc : ¬ allEq l) :
    listMin l < listMax l := by
  unfold allEq at hnc
  push_neg at hnc
  obtain ⟨v, hv, hvne⟩ := hnc
  have hhead : l.headD 0 ∈ l := by
    cases l with
    | nil => exact absurd rfl hne
    | cons x xs => exact List.mem_cons_self _ _
  rcases lt_or_gt_of_ne hvne with h | h
  · exact lt_of_le_of_lt (listMin_le hv) (lt_of_lt_of_le h (le_listMax hhead))
  · exact lt_of_le_of_lt (listMin_le hhead) (lt_of_lt_of_le h (le_listMax hv))

lemma c_le_foldl_min {c a : ℚ} {l : List ℚ} (hca : c ≤ a)
    (hl : ∀ v ∈ l, c ≤ v) : c ≤ l.foldl min a := by
  induction l generalizing a with
  | nil => simpa using hca
  | cons y ys ih =>
    exact ih (le_min hca (hl y (List.mem_cons_self y ys)))
      (fun v hv => hl v (List.mem_cons_of_mem y hv))

lemma foldl_max_le_c {c a : ℚ} {l : List ℚ} (hca : a ≤ c)
    (hl : ∀ v ∈ l, v ≤ c) : l.foldl max a ≤ c := by
  induction l generalizing a with
  | nil => simpa using hca
  | cons y ys ih =>
    exact ih (max_le hca (hl y (List.mem_cons_self y ys)))
      (fun v hv => hl v (List.mem_cons_of_mem y hv))

lemma listMin_const {l : List ℚ} {c : ℚ} (hne : l ≠ [])
    (hconst : ∀ v ∈ l, v = c) : listMin l = c := by
  cases l with
  | nil => exact absurd rfl hne
  | cons x xs =>
    have hx : x = c := hconst x (List.mem_cons_self x xs)
    refine le_antisymm (hx ▸ foldl_min_le_init xs x) ?_
    exact c_le_foldl_min (le_of_eq hx.symm)
      (fun v hv => le_of_eq (hconst v (List.mem_cons_of_mem x hv)).symm)

lemma listMax_const {l : List ℚ} {c : ℚ} (hne : l ≠ [])
    (hconst : ∀ v ∈ l, v = c) : listMax l = c := by
  cases l with
  | nil => exact absurd rfl hne
  | cons x xs =>
    have hx : x = c := hconst x (List.mem_cons_self x xs)
    refine le_antisymm ?_ (hx ▸ init_le_foldl_max xs x)
    exact foldl_max_le_c (le_of_eq hx)
      (fun v hv => le_of_eq (hconst v (List.mem_cons_of_mem x hv)))

/-- C2 counterexample: the single-sample array [5] is not all-65535 and the
percentile pair (1, 99) is admissible (0 ≤ 1 < 99 ≤ 100), yet
`robust_percentiles` returns (5, 5), so `lo < hi` fails on an image that is
not constant saturated. -/
theorem robust_percentiles_claim_counterexample :
    (¬ ∀ v ∈ ([5] : List ℕ), v = 65535) ∧
    (0:ℚ) ≤ 1 ∧ (1:ℚ) < 99 ∧ (99:ℚ) ≤ 100 ∧
    robust_percentiles [5] 1 99 = (5, 5) ∧
    ¬ (robust_percentiles [5] 1 99).1 < (robust_percentiles [5] 1 99).2 := by
  have hnz : nzSamples [5] = [(5:ℚ)] := by norm_num [nzSamples]
  have hp1 : percentile [(5:ℚ)] 1 = 5 :=
    percentile_const (by simp) (by simp) (by norm_num)
  have hp99 : percentile [(5:ℚ)] 99 = 5 :=
    percentile_const (by simp) (by simp) (by norm_num)
  have heq : robust_percentiles [5] 1 99 = (5, 5) := by
    unfold robust_percentiles
    rw [hnz]
    simp [hp1, hp99, listMin, listMax]
  refine ⟨by decide, by norm_num, by norm_num, by norm_num, heq, ?_⟩
  rw [heq]
  norm_num

/-- C2 (amended): for every 0 ≤ pmin < pmax ≤ 100 and 16-bit input,
`robust_percentiles` returns lo < hi strictly, except when the filtered
population (samples strictly between the sentinels 0 and 65535) is nonempty
and constant, in which case it returns lo = hi (both equal to that constant
value).  In particular an all-65535 image has an empty filtered population
and gets the fallback (1.0, 99.0), which does satisfy lo < hi. -/
theorem robust_percentiles_lo_lt_hi (arr : List ℕ) (pmin pmax : ℚ)
    (h0 : 0 ≤ pmin) (h1 : pmin < pmax) (h2 : pmax ≤ 100) :
    (¬ (nzSamples arr ≠ [] ∧ allEq (nzSamples arr)) →
      (robust_percentiles arr pmin pmax).1 < (robust_percentiles arr pmin pmax).2) ∧
    ((nzSamples arr ≠ [] ∧ allEq (nzSamples arr)) →
      (robust_percentiles arr pmin pmax).1 = (robust_percentiles arr pmin pmax).2) := by
  constructor
  · intro hnc
    unfold robust_percentiles
    by_cases hlen : (nzSamples arr).length = 0
    · simp only [hlen, if_pos rfl]
      norm_num
    · have hne : nzSamples arr ≠ [] := by
        intro h; exact hlen (by simp [h])
      have hnc' : ¬ allEq (nzSamples arr) := fun h => hnc ⟨hne, h⟩
      simp only [if_neg hlen]
      by_cases hle : percentile (nzSamples arr) pmax ≤ percentile (nzSamples arr) pmin
      · simp only [if_pos hle]
        exact listMin_lt_listMax hne hnc'
      · simp only [if_neg hle]
        exact not_le.mp hle
  · rintro ⟨hne, hconst⟩
    unfold robust_percentiles
    have hlen : ¬ (nzSamples arr).length = 0 := by
      simpa [List.length_eq_zero] using hne
    have hlo := percentile_const hne hconst (le_of_lt (lt_of_lt_of_le h1 h2))
    have hhi := percentile_const hne hconst h2
    simp only [if_neg hlen, hlo, hhi, if_pos le_rfl]
    rw [listMin_const hne hconst, listMax_const hne hconst]

/-- C2 witness: the amended theorem applied to the two-valued array [3, 7]
with the percentile pair (1, 99); the returned range satisfies lo < hi. -/
theorem robust_percentiles_lo_lt_hi_witness :
    (robust_percentiles [3, 7] 1 99).1 < (robust_percentiles [3, 7] 1 99).2 :=
  (robust_percentiles_lo_lt_hi [3, 7] 1 99 (by norm_num) (by norm_num)
    (by norm_num)).1 (by
      have hnz : nzSamples [3, 7] = [(3:ℚ), 7] := by norm_num [nzSamples]
      norm_num [hnz, allEq])

/-- C5: an array that is entirely the no-data sentinel 0, or entirely the
saturation sentinel 65535, never crashes `robust_percentiles` (the model is a
total function) and yields the fixed default fallback (1.0, 99.0) for every
percentile pair; the fallback satisfies lo < hi. -/
theorem robust_percentiles_degenerate (arr : List ℕ) (pmin pmax : ℚ)
    (h : (∀ v ∈ arr, v = 0) ∨ (∀ v ∈ arr, v = 65535)) :
    robust_percentiles arr pmin pmax = (1, 99) ∧
    (robust_percentiles arr pmin pmax).1 < (robust_percentiles arr pmin pmax).2 := by
  have hnil : nzSamples arr = [] := by
    unfold nzSamples
    have : arr.filter (fun v => decide (0 < v) && decide (v < 65535)) = [] := by
      rw [List.filter_eq_nil_iff]
      intro a ha
      rcases h with h | h
      · simp [h a ha]
      · simp [h a ha]
    simp [this]
  have : robust_percentiles arr pmin pmax = (1, 99) := by
    unfold robust_percentiles
    simp [hnil]
  refine ⟨this, ?_⟩
  rw [this]
  norm_num

/-- C5 witness: the degenerate-array theorem applied to the all-zero array
[0, 0] with the percentile pair (1, 99). -/
theorem robust_percentiles_degenerate_witness :
    robust_percentiles [0, 0] 1 99 = (1, 99) :=
  (robust_percentiles_degenerate [0, 0] 1 99 (Or.inl (by decide))).1

/-! Percentile stretch normalization (process_one, core.py lines 169-171)

```python
lo, hi = robust_percentiles(arr, pmin, pmax)
arrf = arr.astype(np.float32)
arrf = np.clip((arrf - lo) / max(1e-6, (hi - lo)), 0, 1)
```
-/

/-- The per-sample stretch normalization of `process_one`:
`np.clip((x - lo) / max(1e-6, hi - lo), 0, 1)`. -/
def stretch_normalize (lo hi x : ℚ) : ℚ :=
  max 0 (min 1 ((x - lo) / max (1/1000000) (hi - lo)))

/-- C7: the stretch normalization is safe for every sample and every (lo, hi)
pair, including hi = lo: the divisor `max(1e-6, hi - lo)` is strictly
positive and the clipped result lies in [0, 1].  The map is a total function
on ℚ (rationals have no NaN or Infinity), so no sample can ever become
non-finite. -/
theorem stretch_normalize_safe (lo hi x : ℚ) :
    0 < max (1/1000000 : ℚ) (hi - lo) ∧
    0 ≤ stretch_normalize lo hi x ∧ stretch_normalize lo hi x ≤ 1 := by
  refine ⟨lt_of_lt_of_le (by norm_num) (le_max_left _ _), le_max_left _ _, ?_⟩
  unfold stretch_normalize
  exact max_le (by norm_num) (min_le_left _ _)

/-! Quantizer (process_one, core.py line 181)

```python
arr16 = (arrf * 65535.0 + 0.5).astype(np.uint16)
```
-/

/-- The requantization of `process_one`: `(y * 65535.0 + 0.5).astype(np.uint16)`.
The float→uint16 cast truncates toward zero and wraps modulo 2^16; on the
nonnegative values produced by the pipeline, truncation toward zero coincides
with the floor. -/
def quantize_u16 (y : ℚ) : ℕ := (⌊y * 65535 + 1/2⌋).toNat % 65536

/-- C4: for a final sample y ∈ [0, 1], the Quantizer stores
clip(round(y·65535), 0, 65535) (with `round` rounding half up, i.e.
⌊·+1/2⌋); every stored sample lies in [0, 65535] and is within 1/2 of
y·65535, i.e. is a nearest integer to it. -/
theorem quantize_u16_round_clip (y : ℚ) (h0 : 0 ≤ y) (h1 : y ≤ 1) :
    (quantize_u16 y : ℤ) = min 65535 (max 0 (round (y * 65535))) ∧
    quantize_u16 y ≤ 65535 ∧
    |(quantize_u16 y : ℚ) - y * 65535| ≤ 1/2 := by
  have hm0 : 0 ≤ ⌊y * 65535 + 1/2⌋ := Int.floor_nonneg.mpr (by nlinarith)
  have hmlt : ⌊y * 65535 + 1/2⌋ < 65536 := Int.floor_lt.mpr (by push_cast; nlinarith)
  have htn : (⌊y * 65535 + 1/2⌋).toNat < 65536 := by omega
  have hq : quantize_u16 y = (⌊y * 65535 + 1/2⌋).toNat := by
    unfold quantize_u16
    exact Nat.mod_eq_of_lt htn
  have hcast : (quantize_u16 y : ℤ) = ⌊y * 65535 + 1/2⌋ := by
    rw [hq, Int.toNat_of_nonneg hm0]
  have hround : round (y * 65535) = ⌊y * 65535 + 1/2⌋ := round_eq _
  refine ⟨?_, ?_, ?_⟩
  · rw [hcast, hround]
    omega
  · rw [hq]; omega
  · have : ((quantize_u16 y : ℕ) : ℚ) = ((⌊y * 65535 + 1/2⌋ : ℤ) : ℚ) := by
      rw [hq]
      exact_mod_cast Int.toNat_of_nonneg hm0
    rw [this, ← hround, abs_sub_comm]
    exact abs_sub_round (y * 65535)

/-- C4 witness: the quantizer theorem applied at y = 1/3; the stored sample
is 21845 = round(65535/3), within [0, 65535]. -/
theorem quantize_u16_round_clip_witness :
    quantize_u16 (1/3) ≤ 65535 ∧ quantize_u16 (1/3) = 21845 := by
  refine ⟨(quantize_u16_round_clip (1/3) (by norm_num) (by norm_num)).2.1, ?_⟩
  have : ⌊(1/3 : ℚ) * 65535 + 1/2⌋ = 21845 := by
    rw [show (1/3 : ℚ) * 65535 + 1/2 = 43691/2 by norm_num]
    norm_num [Int.floor_eq_iff]
  rw [quantize_u16, this]
  rfl

/-! Sidecar copying (`copy_sidecars`, core.py lines 17-24 and 32-42)

```python
def copy_sidecars(src_tif, dst_dir):
    base = src_tif.name[:-4]
    copied = []
    for suf in SIDECAR_SUFFIXES:
        cand = src_tif.with_name(base + suf)
        if cand.exists():
            dst = dst_dir / cand.name
            if not dst.exists():
                shutil.copy2(cand, dst)
            copied.append(dst.name)
    return copied
```
-/

/-- The fixed companion-suffix list `SIDECAR_SUFFIXES`. -/
def SIDECAR_SUFFIXES : List String :=
  [".RPB", ".rpb", "_RPC.TXT", "_rpc.txt", ".json", ".JSON",
   "_metadata.json", "_METADATA.JSON", ".imd", ".IMD", ".xml", ".XML"]

/-- A directory, modelled as an association list from file names to file
contents (newest entry first). -/
abbrev DirFS := List (String × String)

/-- Contents of the named file, when it exists. -/
def fsLookup (fs : DirFS) (n : String) : Option String :=
  (fs.find? (fun p => p.1 == n)).map (fun p => p.2)

/-- Model of `Path.exists()` on the modelled directory. -/
def fsExists (fs : DirFS) (n : String) : Bool := (fsLookup fs n).isSome

/-- Model of `shutil.copy2`: create the named file with the given contents. -/
def fsWrite (fs : DirFS) (n c : String) : DirFS := (n, c) :: fs

/-- One iteration of the `copy_sidecars` loop for suffix `suf`: if the
candidate `base + suf` exists next to the source, copy it into the
destination unless a file of that name is already there, and append the
candidate's name to the copied list either way. -/
def copySidecarStep (srcFS : DirFS) (base : String) (acc : DirFS × List String)
    (suf : String) : DirFS × List String :=
  match fsLookup srcFS (base ++ suf) with
  | none => acc
  | some content =>
      (if fsExists acc.1 (base ++ suf) then acc.1
       else fsWrite acc.1 (base ++ suf) content,
       acc.2 ++ [base ++ suf])

/-- Model of `copy_sidecars`: strip the 4-character `.tif` extension from the source
raster's name, then run the loop over `SIDECAR_SUFFIXES`.  Returns the
destination directory after the copies together with the `copied` name
list. -/
def copy_sidecars (srcName : String) (srcFS dstFS : DirFS) :
    DirFS × List String :=
  SIDECAR_SUFFIXES.foldl (copySidecarStep srcFS (srcName.dropRight 4)) (dstFS, [])

lemma fsWrite_lookup_self (fs : DirFS) (n c : String) :
    fsLookup (fsWrite fs n c) n = some c := by
  simp [fsWrite, fsLookup, List.find?]

lemma fsWrite_lookup_ne (fs : DirFS) {n m : String} (h : ¬ m = n) (c : String) :
    fsLookup (fsWrite fs m c) n = fsLookup fs n := by
  simp [fsWrite, fsLookup, List.find?, beq_eq_false_iff_ne.mpr h]

lemma copySidecarStep_preserves {srcFS : DirFS} {base : String}
    {acc : DirFS × List String} {suf : String} {n c : String}
    (h : fsLookup acc.1 n = some c) :
    fsLookup (copySidecarStep srcFS base acc suf).1 n = some c := by
  cases hsrc : fsLookup srcFS (base ++ suf) with
  | none => simpa [copySidecarStep, hsrc] using h
  | some content =>
    by_cases hex : fsExists acc.1 (base ++ suf)
    · simpa [copySidecarStep, hsrc, hex] using h
    · have hne : ¬ (base ++ suf) = n := by
        intro he
        apply hex
        unfold fsExists
        rw [he, h]
        rfl
      simpa [copySidecarStep, hsrc, hex, fsWrite_lookup_ne _ hne] using h

lemma copySidecarStep_provenance {srcFS : DirFS} {base : String}
    {acc : DirFS × List String} {suf : String} {n c : String}
    (h : fsLookup (copySidecarStep srcFS base acc suf).1 n = some c) :
    fsLookup acc.1 n = some c ∨ fsLookup srcFS n = some c := by
  cases hsrc : fsLookup srcFS (base ++ suf) with
  | none =>
    simp only [copySidecarStep, hsrc] at h
    exact Or.inl h
  | some content =>
    by_cases hex : fsExists acc.1 (base ++ suf)
    · simp [copySidecarStep, hsrc, hex] at h
      exact Or.inl h
    · simp [copySidecarStep, hsrc, hex] at h
      by_cases heq : (base ++ suf) = n
      · right
        rw [heq] at hsrc h
        rw [fsWrite_lookup_self] at h
        rw [hsrc, h]
      · left
        rwa [fsWrite_lookup_ne _ heq] at h

lemma foldl_copy_preserves (L : List String) (srcFS : DirFS) (base : String)
    (acc : DirFS × List String) {n c : String}
    (h : fsLookup acc.1 n = some c) :
    fsLookup ((L.foldl (copySidecarStep srcFS base) acc)).1 n = some c := by
  induction L generalizing acc with
  | nil => exact h
  | cons s ss ih => exact ih _ (copySidecarStep_preserves h)

lemma foldl_copy_provenance (L : List String) (srcFS : DirFS) (base : String)
    (acc : DirFS × List String) {n c : String}
    (h : fsLookup ((L.foldl (copySidecarStep srcFS base) acc)).1 n = some c) :
    fsLookup acc.1 n = some c ∨ fsLookup srcFS n = some c := by
  induction L generalizing acc with
  | nil => exact Or.inl h
  | cons s ss ih =>
    rcases ih _ h with h' | h'
    · exact copySidecarStep_provenance h'
    · exact Or.inr h'

lemma foldl_copy_exists_mono (L : List String) (srcFS : DirFS) (base : String)
    (acc : DirFS × List String) {n : String}
    (h : fsExists acc.1 n = true) :
    fsExists ((L.foldl (copySidecarStep srcFS base) acc)).1 n = true := by
  obtain ⟨c, hc⟩ := Option.isSome_iff_exists.mp h
  unfold fsExists
  rw [foldl_copy_preserves L srcFS base acc hc]
  rfl

lemma foldl_copy_covers (L : List String) (srcFS : DirFS) (base : String)
    (acc : DirFS × List String) {suf content : String}
    (hsuf : suf ∈ L) (hsrc : fsLookup srcFS (base ++ suf) = some content) :
    fsExists ((L.foldl (copySidecarStep srcFS base) acc)).1 (base ++ suf) = true := by
  induction L generalizing acc with
  | nil => cases hsuf
  | cons s ss ih =>
    rcases List.mem_cons.mp hsuf with rfl | h'
    · rw [List.foldl_cons]
      apply foldl_copy_exists_mono
      by_cases hex : fsExists acc.1 (base ++ suf)
      · simpa [copySidecarStep, hsrc, hex] using hex
      · simp only [copySidecarStep, hsrc]
        rw [if_neg hex]
        unfold fsExists
        rw [fsWrite_lookup_self]
        rfl
    · rw [List.foldl_cons]
      exact ih _ h'

/-- C8: existing destination sidecars are never overwritten (first-write-wins)
— any file already present in the destination directory keeps its exact
contents across `copy_sidecars` — while a sidecar candidate that exists next
to the source and has no destination counterpart is copied with the source's
contents. -/
theorem copy_sidecars_first_write_wins (srcName : String) (srcFS dstFS : DirFS)
    (n c : String) (hdst : fsLookup dstFS n = some c) :
    fsLookup (copy_sidecars srcName srcFS dstFS).1 n = some c ∧
    (∀ suf ∈ SIDECAR_SUFFIXES, ∀ content : String,
      fsLookup srcFS (srcName.dropRight 4 ++ suf) = some content →
      fsExists dstFS (srcName.dropRight 4 ++ suf) = false →
      fsLookup (copy_sidecars srcName srcFS dstFS).1 (srcName.dropRight 4 ++ suf) =
        some content) := by
  unfold copy_sidecars
  constructor
  · exact foldl_copy_preserves _ _ _ _ hdst
  · intro suf hsuf content hsrc hnodst
    have hcov := foldl_copy_covers SIDECAR_SUFFIXES srcFS (srcName.dropRight 4)
      (dstFS, []) hsuf hsrc
    obtain ⟨c', hc'⟩ := Option.isSome_iff_exists.mp hcov
    rcases foldl_copy_provenance SIDECAR_SUFFIXES srcFS (srcName.dropRight 4)
      (dstFS, []) hc' with h' | h'
    · exfalso
      have : fsExists dstFS (srcName.dropRight 4 ++ suf) = true := by
        unfold fsExists
        rw [h']
        rfl
      rw [this] at hnodst
      cases hnodst
    · rw [hc']
      rw [h'] at hsrc
      exact hsrc

/-- C8 witness: with source files `a.RPB` and `a.json` and an existing
destination `a.json` holding "OLD", the destination keeps "OLD" and the
missing sidecar `a.RPB` is copied with the source contents "R". -/
theorem copy_sidecars_first_write_wins_witness :
    fsLookup (copy_sidecars "a.tif" [("a.RPB", "R"), ("a.json", "NEW")]
      [("a.json", "OLD")]).1 "a.json" = some "OLD" ∧
    fsLookup (copy_sidecars "a.tif" [("a.RPB", "R"), ("a.json", "NEW")]
      [("a.json", "OLD")]).1 ("a.tif".dropRight 4 ++ ".RPB") = some "R" :=
  ⟨(copy_sidecars_first_write_wins "a.tif" [("a.RPB", "R"), ("a.json", "NEW")]
      [("a.json", "OLD")] "a.json" "OLD" rfl).1,
   (copy_sidecars_first_write_wins "a.tif" [("a.RPB", "R"), ("a.json", "NEW")]
      [("a.json", "OLD")] "a.json" "OLD" rfl).2 ".RPB" (by decide) "R" rfl rfl⟩

lemma foldl_copy_copied (L : List String) (srcFS : DirFS) (base : String)
    (fs : DirFS) (l : List String) :
    (L.foldl (copySidecarStep srcFS base) (fs, l)).2 =
      l ++ (L.filter (fun suf => fsExists srcFS (base ++ suf))).map
        (fun suf => base ++ suf) := by
  induction L generalizing fs l with
  | nil => simp
  | cons s ss ih =>
    rw [List.foldl_cons, List.filter_cons]
    cases hsrc : fsLookup srcFS (base ++ s) with
    | none =>
      have hex : fsExists srcFS (base ++ s) = false := by
        unfold fsExists
        rw [hsrc]
        rfl
      have hstep : copySidecarStep srcFS base (fs, l) s = (fs, l) := by
        simp [copySidecarStep, hsrc]
      rw [hstep, hex, ih]
      simp
    | some content =>
      have hex : fsExists srcFS (base ++ s) = true := by
        unfold fsExists
        rw [hsrc]
        rfl
      have hstep : copySidecarStep srcFS base (fs, l) s =
          (if fsExists fs (base ++ s) then fs else fsWrite fs (base ++ s) content,
           l ++ [base ++ s]) := by
        simp [copySidecarStep, hsrc]
      rw [hstep, hex, ih]
      simp

/-- C9: the `copied` list returned by `copy_sidecars` is exactly the list of
sidecar candidates that exist next to the source — one entry per suffix whose
candidate exists, in suffix order — independent of the destination directory's
prior contents; in particular candidates whose copy was skipped because the
destination already had them are still reported. -/
theorem copy_sidecars_reports_all_candidates (srcName : String)
    (srcFS dstFS : DirFS) :
    (copy_sidecars srcName srcFS dstFS).2 =
      (SIDECAR_SUFFIXES.filter
        (fun suf => fsExists srcFS (srcName.dropRight 4 ++ suf))).map
        (fun suf => srcName.dropRight 4 ++ suf) := by
  unfold copy_sidecars
  rw [foldl_copy_copied]
  simp

/-! Sensor-model transplant (core.py lines 14, 44-68, 184-189)

```python
gdal.UseExceptions()                               # line 14
def embed_rpc_into_tif(dst_tif, rpc):
    if not rpc:
        return False
    ds = gdal.Open(str(dst_tif), gdal.GA_Update)   # raises under UseExceptions
    if ds is None:                                 # dead code under UseExceptions
        return False
    ds.SetMetadata(rpc, "RPC")
    ds = None
    return True
def verify_embedded_rpc(dst_tif):
    ds = gdal.Open(str(dst_tif), gdal.GA_ReadOnly) # raises under UseExceptions
    if ds is None:
        return False
    ok = bool(ds.GetMetadata("RPC"))
    ds = None
    return ok
```
and in `process_one` (lines 184-189), after the pixel raster is written:
```python
    if not embed_rpc_into_tif(dst_tif, rpc):
        log(f"[WARN] No RPC embedded ...")
    elif not verify_embedded_rpc(dst_tif):
        log(f"[WARN] Could not verify RPC ...")
```

The module calls `gdal.UseExceptions()` at import time, so a `gdal.Open`
that cannot open its target raises `RuntimeError` instead of returning
`None`; the `if ds is None` checks are unreachable.  Opens are therefore
modelled in the `Except` monad, parameterized by whether the target can be
opened. -/

/-- An RPC metadata block: an opaque string-keyed mapping. -/
abbrev RpcBlock := List (String × String)

/-- Model of `gdal.Open` under `gdal.UseExceptions()`: yields the dataset
handle, or raises `RuntimeError` when the target cannot be opened. -/
def gdalOpen (openable : Bool) : Except String Unit :=
  if openable then .ok () else .error "RuntimeError: unable to open"

/-- Model of `embed_rpc_into_tif`: `False` for an empty block; otherwise open
the destination for update — which raises when the destination cannot be
opened, making the `if ds is None: return False` branch dead code — set the
RPC namespace and return `True`. -/
def embed_rpc_into_tif (rpc : RpcBlock) (dstOpenableUpdate : Bool) :
    Except String Bool :=
  if rpc.isEmpty then .ok false
  else do
    let _ ← gdalOpen dstOpenableUpdate
    .ok true

/-- Model of `verify_embedded_rpc`: re-open the destination read-only
(raising when it cannot be opened) and report whether its RPC namespace is
non-empty; `dstRpc` is the RPC namespace the destination holds at re-read
time. -/
def verify_embedded_rpc (dstRpc : RpcBlock) (dstOpenableRead : Bool) :
    Except String Bool := do
  let _ ← gdalOpen dstOpenableRead
  .ok (!dstRpc.isEmpty)

/-- A transplant warning logged by `process_one`. -/
inductive RpcWarning
  | noRpcEmbedded
  | couldNotVerify
deriving DecidableEq

/-- The sensor-model transplant tail of `process_one` (lines 184-189), from
the point where the pixel raster has been written: embed the source block
into the destination, log a warning if that reports failure, otherwise
verify and log a warning if verification fails; return the destination path
together with the warnings.  `dstRpcAfter` is the RPC namespace the
verification re-read observes. -/
def rpcTransplantStep (dst : String) (rpc : RpcBlock)
    (dstOpenableUpdate dstOpenableRead : Bool) (dstRpcAfter : RpcBlock) :
    Except String (String × List RpcWarning) := do
  let ok ← embed_rpc_into_tif rpc dstOpenableUpdate
  if !ok then
    return (dst, [.noRpcEmbedded])
  else
    let v ← verify_embedded_rpc dstRpcAfter dstOpenableRead
    if !v then
      return (dst, [.couldNotVerify])
    else
      return (dst, [])

/-- C3: the claim fails on the code — the transplant tail of `process_one`
handles an empty source RPC block and a failed verification as warnings
(returning the destination path normally), but when the source block is
non-empty and the destination cannot be opened for metadata update,
`gdal.Open` raises `RuntimeError` (the module runs under
`gdal.UseExceptions()`), the exception propagates out of `process_one`, and
`embed_rpc_into_tif` never gets to return `False`: its `if ds is None`
check is dead code.  The spec (§4.5) and the shape of that check make the
non-raising behavior the clear intent, so this is a bug in the code. -/
theorem rpc_transplant_open_failure_raises :
    rpcTransplantStep "out.tif" [("LINE_OFF", "0")] false true
      [("LINE_OFF", "0")] = .error "RuntimeError: unable to open" ∧
    rpcTransplantStep "out.tif" [] true true [] =
      .ok ("out.tif", [.noRpcEmbedded]) ∧
    rpcTransplantStep "out.tif" [("LINE_OFF", "0")] true true [] =
      .ok ("out.tif", [.couldNotVerify]) ∧
    rpcTransplantStep "out.tif" [("LINE_OFF", "0")] true true
      [("LINE_OFF", "0")] = .ok ("out.tif", []) :=
  ⟨rfl, rfl, rfl, rfl⟩

/-! Batch driver (`process_pair_dirs`, core.py lines 206-223)

```python
def process_pair_dirs(pair_src, pair_out, **kwargs):
    ensure_dir(pair_out)
    tifs = find_tifs(pair_src)
    if not tifs:
        log(f"[WARN] No SkySat L1A TIFFs found in ...")
        return
    for tif in tifs:
        try:
            dst, copied, ql = process_one(tif, pair_out, **kwargs)
            log(f"  -> wrote ...")
            if copied: log(f"  -> sidecars: ...")
            if ql and not kwargs.get("rm_quicklook", False):
                log(f"  -> quicklook: ...")
        except Exception as e:
            log(f"[ERROR] ...")
```

The per-file pipeline `process_one` is abstracted as a function from the
file name to `Except` (an arbitrary pipeline, allowed to fail on any file
with any message); the driver itself is a total function into a log. -/

/-- A per-file result of `process_one`: destination path, copied sidecar
names, optional quicklook path. -/
abbrev PipelineResult := String × List String × Option String

/-- A log line emitted by the batch driver. -/
inductive BatchLog
  | warnNoFiles
  | wrote (dst : String)
  | sidecars (names : List String)
  | quicklook (name : String)
  | error (tif : String) (msg : String)
deriving DecidableEq

/-- The body of the `process_pair_dirs` loop for one file, inside
`try/except Exception`: a success logs what was written (plus sidecar and
quicklook lines when applicable); a failure of any kind is caught and logged
as an error line.  The result is log data, never a propagating exception. -/
def processFileLogged (pipeline : String → Except String PipelineResult)
    (rmQuicklook : Bool) (tif : String) : List BatchLog :=
  match pipeline tif with
  | .ok (dst, copied, ql) =>
      [BatchLog.wrote dst] ++
      (if copied.isEmpty then [] else [BatchLog.sidecars copied]) ++
      (match ql with
       | some q => if rmQuicklook then [] else [BatchLog.quicklook q]
       | none => [])
  | .error e => [BatchLog.error tif e]

/-- Model of `process_pair_dirs`: warn when no files match, otherwise run
the per-file pipeline on each matched file in order with per-file exception
isolation. -/
def process_pair_dirs (tifs : List String)
    (pipeline : String → Except String PipelineResult) (rmQuicklook : Bool) :
    List BatchLog :=
  if tifs.isEmpty then [BatchLog.warnNoFiles]
  else tifs.flatMap (processFileLogged pipeline rmQuicklook)

/-- C6: per-file failure isolation — for every pipeline function, every
flag, and every file list in which some file's pipeline run fails with any
exception, the batch driver catches it, logs an error line for that file,
and still processes every file before and after it in order; the driver is a
total function into a log list, so no per-file exception propagates out of
it. -/
theorem process_pair_dirs_isolates_failures
    (pipeline : String → Except String PipelineResult) (rm : Bool)
    (pre post : List String) (tif e : String)
    (hfail : pipeline tif = .error e) :
    process_pair_dirs (pre ++ tif :: post) pipeline rm =
      pre.flatMap (processFileLogged pipeline rm) ++
      (BatchLog.error tif e :: post.flatMap (processFileLogged pipeline rm)) := by
  unfold process_pair_dirs
  have hne : (pre ++ tif :: post).isEmpty = false := by
    cases pre <;> rfl
  rw [hne]
  simp only [Bool.false_eq_true, if_neg, not_false_iff, List.flatMap_append,
    List.flatMap_cons]
  rw [show processFileLogged pipeline rm tif = [BatchLog.error tif e] by
    unfold processFileLogged; rw [hfail]]
  simp

/-- A concrete pipeline stub that fails on exactly the file "b". -/
def examplePipeline : String → Except String PipelineResult :=
  fun tif => if tif = "b" then .error "boom" else .ok (tif, [], none)

/-- C6 witness: the isolation theorem applied to the batch ["a", "b", "c"]
with `examplePipeline`, which throws on "b": the driver logs the error for
"b" and still writes "a" and "c" in order. -/
theorem process_pair_dirs_isolates_failures_witness :
    process_pair_dirs ["a", "b", "c"] examplePipeline false =
      [BatchLog.wrote "a", BatchLog.error "b" "boom", BatchLog.wrote "c"] :=
  (process_pair_dirs_isolates_failures examplePipeline false ["a"] ["c"]
    "b" "boom" (by rfl)).trans (by rfl)

end SkySatPrep
